import Mathlib

/-!
Verification of the recursive-descent parsing core of `pest` (files
`src/parser.rs` and `src/parsers/rdp.rs`): position/backtrack management,
the token queue, furthest-failure tracking, atomic-mode gating,
whitespace/comment skipping and the precedence-climbing algorithm.

The parser state `Rdp` is a shallow embedding of the Rust struct `Rdp<T>`
together with the position of its `Input` (the `StringInput` layer is not
part of the two source files; its `match_string`/`match_range` behaviour is
modelled from the Input Contract of the spec, §4.1).  Rule tags (`enum Rule`)
are embedded as `Nat` — an opaque, totally ordered, decidable tag, exactly
the interface the core uses.  Rule bodies (`FnOnce(&mut Self) -> bool`
closures) become functions `Rdp → Bool × Rdp`.  The two `loop`s of
`skip_ws`/`skip_com` and the recursion of `prec_climb` are given explicit
fuel; all theorems either quantify over the fuel or supply enough of it.
-/

namespace Pest

/-- Rule tags. The source's `enum Rule` is grammar-specific; the core treats
it as an opaque, totally-ordered, comparable tag, so we embed it as `Nat`.
The two built-ins `Rule::any` and `Rule::eoi` are the first two enum
variants in the source, hence tags 0 and 1. -/
abbrev Rule := Nat

/-- Tag of the built-in `Rule::any`. -/
def anyR : Rule := 0

/-- Tag of the built-in `Rule::eoi`. -/
def eoiR : Rule := 1

/-- A matched span, embedding the source's `Token { rule, start, end }`.
The `end` field is renamed `stop` (`end` is a Lean keyword). -/
structure Token where
  rule  : Rule
  start : Nat
  stop  : Nat
deriving DecidableEq, Repr

/-- Parser state: the fields of the Rust struct `Rdp<T>` plus the position
of its input (held by the `Input` value in Rust).  The input itself is a
list of characters; `pos` indexes into it. -/
structure Rdp where
  input       : List Char
  pos         : Nat
  queue       : List Token
  queue_index : Nat
  failures    : List Rule
  fail_pos    : Nat
  atomic      : Bool
  comment     : Bool
  eoi_matched : Bool
deriving DecidableEq, Repr

/-- An operator triple as returned by the grammar-supplied `climb` closure:
optional result tag (none for a silent operator), precedence, and
right-associativity. -/
abbrev Op := Option Rule × Nat × Bool

namespace Rdp

/-- `Rdp::new`: fresh parser over an input. -/
def new (input : List Char) : Rdp :=
  { input       := input
    pos         := 0
    queue       := []
    queue_index := 0
    failures    := []
    fail_pos    := 0
    atomic      := false
    comment     := false
    eoi_matched := false }

/-- `end()`: position equals input length (renamed, `end` is a keyword). -/
def isEnd (s : Rdp) : Bool := s.input.length == s.pos

/-- Modelled from the spec: the Input Contract's `match_literal` test
(§4.1) — whether the input starts with `str` at position `pos`.  The
`StringInput` implementation is not among the source files. -/
def matchesAt (input : List Char) (pos : Nat) (str : List Char) : Bool :=
  (input.drop pos).take str.length == str

/-- `match_string`: thin delegation to the input; on success the position
advances by the literal's length, on failure the state is unchanged.
The input side is modelled from the spec's Input Contract (§4.1). -/
def match_string (str : List Char) (s : Rdp) : Bool × Rdp :=
  if matchesAt s.input s.pos str then
    (true, { s with pos := s.pos + str.length })
  else
    (false, s)

/-- `match_range`: thin delegation to the input; advances one character if
the character at the current position lies in `[lo, hi]`.  The input side
is modelled from the spec's Input Contract (§4.1). -/
def match_range (lo hi : Char) (s : Rdp) : Bool × Rdp :=
  match s.input[s.pos]? with
  | some c => if lo ≤ c ∧ c ≤ hi then (true, { s with pos := s.pos + 1 }) else (false, s)
  | none   => (false, s)

/-- `track(failed, pos)`: furthest-failure bookkeeping, verbatim from the
source: a no-op in atomic mode; otherwise push on empty, push on equal
position, clear-and-push on strictly deeper position, ignore on shallower. -/
def track (failed : Rule) (p : Nat) (s : Rdp) : Rdp :=
  if s.atomic then s
  else if s.failures.isEmpty then
    { s with failures := s.failures ++ [failed], fail_pos := p }
  else if p = s.fail_pos then
    { s with failures := s.failures ++ [failed] }
  else if p > s.fail_pos then
    { s with failures := [failed], fail_pos := p }
  else s

/-- `any()`: advance one position unless at end; at end, track `Rule::any`. -/
def any (s : Rdp) : Bool × Rdp :=
  if s.isEnd then
    (false, s.track anyR s.pos)
  else
    (true, { s with pos := s.pos + 1 })

/-- `eoi()`: succeed exactly at end, setting `eoi_matched`; otherwise track
`Rule::eoi` at the current position. -/
def eoi (s : Rdp) : Bool × Rdp :=
  if s.isEnd then
    (true, { s with eoi_matched := true })
  else
    (false, s.track eoiR s.pos)

/-- `reset()`: verbatim from the source — position to 0, queue cleared,
failures cleared, `fail_pos` to 0 (and nothing else touched). -/
def reset (s : Rdp) : Rdp :=
  { s with pos := 0, queue := [], failures := [], fail_pos := 0 }

/-- `try(revert, rule)`: the single rollback primitive.  Records position
and queue length, runs the rule body, restores the position if `revert` or
the body failed, and truncates the queue (only) if the body failed. -/
def tryRule (revert : Bool) (rule : Rdp → Bool × Rdp) (s : Rdp) : Bool × Rdp :=
  let pos := s.pos
  let len := s.queue.length
  let (result, s1) := rule s
  let s2 := if revert || !result then { s1 with pos := pos } else s1
  let s3 := if !result then { s2 with queue := s2.queue.take len } else s2
  (result, s3)

/-- The `loop { if !recog() { break } }` of `skip_ws`/`skip_com`, with
explicit fuel; `none` means the fuel ran out before the recognizer failed. -/
def skipLoop (recog : Rdp → Bool × Rdp) : Nat → Rdp → Option Rdp
  | 0, _ => none
  | fuel + 1, s =>
    let (b, s') := recog s
    if b then skipLoop recog fuel s' else some s'

/-- `skip_ws()`: a no-op in atomic mode, else loop the grammar-supplied
whitespace recognizer until it fails once. -/
def skip_ws (whitespace : Rdp → Bool × Rdp) (fuel : Nat) (s : Rdp) : Option Rdp :=
  if s.atomic then some s else skipLoop whitespace fuel s

/-- `skip_com()`: a no-op in atomic mode; guarded against re-entrance by the
`comment` flag, which is set around the loop of the grammar-supplied comment
recognizer. -/
def skip_com (comment : Rdp → Bool × Rdp) (fuel : Nat) (s : Rdp) : Option Rdp :=
  if s.atomic then some s
  else if !s.comment then
    (skipLoop comment fuel { s with comment := true }).map
      (fun s' => { s' with comment := false })
  else some s

/-- The in-place `self.failures.sort()` of `expected`: the nondecreasing
rearrangement of the failure list (embedded as insertion sort; rule tags
are totally ordered, so any sorting algorithm agrees up to stability, and
equal tags are identical). -/
def sortRules (l : List Rule) : List Rule := l.insertionSort (· ≤ ·)

/-- The in-place `self.failures.dedup()` of `expected`: removal of
consecutive duplicates, as Rust's `Vec::dedup`. -/
def dedupConsec : List Rule → List Rule
  | [] => []
  | [a] => [a]
  | a :: b :: l => if a = b then dedupConsec (a :: l) else a :: dedupConsec (b :: l)
termination_by l => l.length

/-- `expected()`: sorts and dedupes the stored failure list in place and
returns it with the deepest failure position. -/
def expected (s : Rdp) : (List Rule × Nat) × Rdp :=
  let sorted := dedupConsec (sortRules s.failures)
  ((sorted, s.fail_pos), { s with failures := sorted })

mutual

/-- The outer `while let Some((rule, prec, _)) = op` loop of `prec_climb`,
with explicit fuel.  When the fuel runs out the current leftover operator
and `last_right` are returned with the state as-is (all theorems either
quantify over the fuel or supply enough of it). -/
def pcLoop (primary : Rdp → Bool × Rdp) (climb : Rdp → Option Op × Rdp) :
    Nat → Nat → Nat → Nat → Option Op → Option Nat → Rdp → (Option Op × Option Nat) × Rdp
  | 0, _, _, _, op, last_right, s => ((op, last_right), s)
  | fuel + 1, pos, left, min_prec, op, last_right, s =>
    match op with
    | none => ((none, last_right), s)
    | some (rule, prec, assoc) =>
      if prec ≥ min_prec then
        let new_pos := s.pos
        let right := s.pos
        let queue_pos := s.queue.length
        let s := (primary s).2
        let (new_pos, right) :=
          match s.queue[queue_pos]? with
          | some token => (token.start, token.stop)
          | none => (new_pos, right)
        let (op, s) := climb s
        let ((op, last_right), s) :=
          pcInner primary climb fuel prec queue_pos new_pos op last_right s
        let (right, last_right) :=
          match last_right with
          | some p => (max p right, some p)
          | none => (right, some right)
        let s :=
          match rule with
          | some rule => { s with queue := s.queue.insertIdx pos ⟨rule, left, right⟩ }
          | none => s
        pcLoop primary climb fuel pos left min_prec op last_right s
      else
        ((some (rule, prec, assoc), last_right), s)
termination_by structural fuel _ _ _ _ _ _ => fuel

/-- The inner `while let Some((_, new_prec, right_assoc)) = op` loop of
`prec_climb`: as long as the freshly looked-up operator climbs (strictly
greater precedence, or equal precedence and right-associative), recurse with
it as the pending operator and new minimum.  The Rust recursion
`self.prec_climb(queue_pos, new_pos, new_prec, op, ...)` always passes a
`Some` pending operator, for which `prec_climb` reduces to its loop with
that operator, so the recursion goes directly through `pcLoop`. -/
def pcInner (primary : Rdp → Bool × Rdp) (climb : Rdp → Option Op × Rdp) :
    Nat → Nat → Nat → Nat → Option Op → Option Nat → Rdp → (Option Op × Option Nat) × Rdp
  | 0, _, _, _, op, last_right, s => ((op, last_right), s)
  | fuel + 1, prec, queue_pos, new_pos, op, last_right, s =>
    match op with
    | none => ((none, last_right), s)
    | some (r, new_prec, right_assoc) =>
      if new_prec > prec ∨ (right_assoc ∧ new_prec = prec) then
        let ((new_op, new_lr), s) :=
          pcLoop primary climb fuel queue_pos new_pos new_prec
            (some (r, new_prec, right_assoc)) none s
        pcInner primary climb fuel prec queue_pos new_pos new_op new_lr s
      else
        ((some (r, new_prec, right_assoc), last_right), s)
termination_by structural fuel _ _ _ _ _ _ => fuel

end

/-- `prec_climb(pos, left, min_prec, last_op, primary, climb)`: start from
the pending operator if there is one, else look one up, then run the outer
climbing loop. -/
def prec_climb (fuel pos left min_prec : Nat) (last_op : Option Op)
    (primary : Rdp → Bool × Rdp) (climb : Rdp → Option Op × Rdp) (s : Rdp) :
    (Option Op × Option Nat) × Rdp :=
  let (op, s) :=
    match last_op with
    | some o => (some o, s)
    | none => climb s
  pcLoop primary climb fuel pos left min_prec op none s

end Rdp

/-! The concrete operator grammar of the spec's precedence/associativity
property (§8): primaries are single lowercase letters; `+` is a
left-associative operator of precedence 1 and `^` a right-associative
operator of precedence 2.  The closures are built from the core's own
primitives (`match_range`, `match_string`, queue push). -/

/-- Tag of the single-letter primary rule. -/
def letterR : Rule := 2

/-- Tag of the `+` operator rule. -/
def plusR : Rule := 3

/-- Tag of the `^` operator rule. -/
def caretR : Rule := 4

/-- The `primary` closure: match one letter `a`–`z` with `match_range` and
push a token for it spanning exactly that character. -/
def letterPrimary (s : Rdp) : Bool × Rdp :=
  let start := s.pos
  let (b, s1) := s.match_range 'a' 'z'
  if b then
    (true, { s1 with queue := s1.queue ++ [⟨letterR, start, s1.pos⟩] })
  else
    (false, s1)

/-- The `climb` closure: recognize and consume an infix operator, returning
its result tag, precedence and associativity — `+` is (plusR, 1, left),
`^` is (caretR, 2, right) — or `none` if neither matches (in which case
`match_string` has left the state unchanged). -/
def opClimb (s : Rdp) : Option Op × Rdp :=
  let (b, s1) := s.match_string ['+']
  if b then
    (some (some plusR, 1, false), s1)
  else
    let (b2, s2) := s1.match_string ['^']
    if b2 then
      (some (some caretR, 2, true), s2)
    else
      (none, s2)

/-- A whole climbed expression: record the queue position and left bound,
match the first primary, and hand over to `prec_climb` with minimum
precedence 0 and no pending operator. -/
def climbExpr (fuel : Nat) (s : Rdp) : Rdp :=
  let queue_pos := s.queue.length
  let left := s.pos
  let (b, s1) := letterPrimary s
  if b then
    (s1.prec_climb fuel queue_pos left 0 none letterPrimary opClimb).2
  else
    s1

/-- Parse a string with the scenario grammar from a fresh parser. -/
def parseExpr (fuel : Nat) (input : List Char) : Rdp :=
  climbExpr fuel (Rdp.new input)

/-- A sequence of `track` calls, applied left to right. -/
def trackSeq (calls : List (Rule × Nat)) (s : Rdp) : Rdp :=
  calls.foldl (fun t c => t.track c.1 c.2) s

/-- The maximum position occurring in a sequence of `track` calls
(0 for the empty sequence). -/
def maxTrackedPos (calls : List (Rule × Nat)) : Nat :=
  calls.foldr (fun c m => max c.2 m) 0

/-- The tags passed together with position `p` in a sequence of `track`
calls, in call order. -/
def tagsAt (p : Nat) (calls : List (Rule × Nat)) : List Rule :=
  (calls.filter (fun c => c.2 == p)).map Prod.fst

/-- Span containment: `a`'s span contains `b`'s span. -/
def spanContains (a b : Token) : Prop :=
  a.start ≤ b.start ∧ b.stop ≤ a.stop

instance (a b : Token) : Decidable (spanContains a b) := by
  unfold spanContains; infer_instance

/-- The token-queue containment-ordering invariant: whenever one token's
span contains another token's span, the containing token occurs at or
before the contained one — equivalently, no token contains the span of
a token at a strictly earlier index. -/
def orderedContainment (q : List Token) : Prop :=
  q.Pairwise (fun a b => ¬ spanContains b a)

instance (q : List Token) : Decidable (orderedContainment q) := by
  unfold orderedContainment; infer_instance

/-- A rule body that pushes one token and succeeds, used to exhibit the
queue half of `try`'s revert asymmetry. -/
def pushTok (s : Rdp) : Bool × Rdp :=
  (true, { s with queue := s.queue ++ [⟨letterR, 0, 1⟩] })

/-- A whitespace recognizer that consumes exactly one character while any
input remains: it strictly advances on every success. -/
def advanceWs (t : Rdp) : Bool × Rdp :=
  if t.pos < t.input.length then (true, { t with pos := t.pos + 1 }) else (false, t)

/-- A recognizer that succeeds without consuming anything: with it the
skip loop never exits. -/
def stuckWs (t : Rdp) : Bool × Rdp := (true, t)

/-- Queue well-formedness maintained by the scenario parse: every token
ends at or before the current position and has positive width, and the
queue satisfies the containment-ordering invariant. -/
def QInv (s : Rdp) : Prop :=
  (∀ t ∈ s.queue, t.stop ≤ s.pos ∧ t.start < t.stop) ∧ orderedContainment s.queue

/-- Shape of the queue around a `prec_climb` frame with insertion index
`pos` and left bound `left`: `pos` is inside the queue, `left` precedes the
current position, tokens at or after `pos` start at or after `left`, and
tokens before `pos` lie strictly to the left of `left`. -/
def RegionInv (pos left : Nat) (s : Rdp) : Prop :=
  pos ≤ s.queue.length ∧ left < s.pos ∧
  (∀ t ∈ s.queue.drop pos, left ≤ t.start) ∧
  (∀ t ∈ s.queue.take pos, t.start < left ∧ t.stop ≤ left)

/-- Precondition of a `pcLoop`/`pcInner` frame: the queue invariants hold,
any incoming `last_right` value is bounded by the position, and if an
operator is pending (it was the last thing consumed from the input) every
token ends strictly before the position. -/
def PcPre (pos left : Nat) (op : Option Op) (lr : Option Nat) (s : Rdp) : Prop :=
  QInv s ∧ RegionInv pos left s ∧
  (∀ p : Nat, lr = some p → p ≤ s.pos) ∧
  (op.isSome = true →
    (∀ t ∈ s.queue, t.stop < s.pos) ∧ (∀ p : Nat, lr = some p → p < s.pos))

/-- Postcondition of a `pcLoop`/`pcInner` frame: the invariants still hold,
the input is untouched, the position has not moved backwards, the queue
before the frame's insertion index is untouched, the returned `last_right`
is bounded by the final position, and if a leftover operator is returned
the strict end bound holds again. -/
def PcPost (pos left : Nat) (s : Rdp) (r : (Option Op × Option Nat) × Rdp) : Prop :=
  QInv r.2 ∧ RegionInv pos left r.2 ∧
  r.2.input = s.input ∧ s.pos ≤ r.2.pos ∧
  r.2.queue.take pos = s.queue.take pos ∧
  (∀ p : Nat, r.1.2 = some p → p ≤ r.2.pos) ∧
  (r.1.1.isSome = true →
    (∀ t ∈ r.2.queue, t.stop < r.2.pos) ∧ (∀ p : Nat, r.1.2 = some p → p < r.2.pos))

/-! ## Theorems -/

/-- Claim C2: asymmetry of `try`. For every rule body and every `revert`
flag, the call returns the body's result; the queue is truncated back to
its pre-call length exactly when the body failed (on success it is left as
the body produced it, untruncated); and the position is restored exactly
when `revert` is set or the body failed (otherwise it is left where the
body put it). The hypothesis records that a rule body never shrinks the
queue below its entry length — rule bodies only push tokens or roll back
to lengths recorded during their own run. -/
theorem tryRule_asymmetry (revert : Bool) (rule : Rdp → Bool × Rdp) (s : Rdp)
    (h : s.queue.length ≤ (rule s).2.queue.length) :
    ((Rdp.tryRule revert rule s).1 = (rule s).1) ∧
    ((rule s).1 = false → (Rdp.tryRule revert rule s).2.queue.length = s.queue.length) ∧
    ((rule s).1 = true → (Rdp.tryRule revert rule s).2.queue = (rule s).2.queue) ∧
    (revert = true ∨ (rule s).1 = false → (Rdp.tryRule revert rule s).2.pos = s.pos) ∧
    (revert = false → (rule s).1 = true → (Rdp.tryRule revert rule s).2.pos = (rule s).2.pos) := by
  rcases hrs : rule s with ⟨result, s1⟩
  rw [hrs] at h
  simp only [Rdp.tryRule, hrs]
  cases result <;> cases revert <;>
    simp_all [List.length_take, Nat.min_eq_left h]

/-- Witness for C2 at a concrete input: a failing rule body that pushed a
token; the queue length is restored and the position reverts. -/
theorem tryRule_asymmetry_witness :
    ((Rdp.new ['a']).queue.length ≤
      ((fun t => (false, (pushTok t).2)) (Rdp.new ['a'])).2.queue.length) ∧
    (((Rdp.tryRule false (fun t => (false, (pushTok t).2)) (Rdp.new ['a'])).1 =
        ((fun t => (false, (pushTok t).2)) (Rdp.new ['a'])).1) ∧
      (((fun t => (false, (pushTok t).2)) (Rdp.new ['a'])).1 = false →
        (Rdp.tryRule false (fun t => (false, (pushTok t).2)) (Rdp.new ['a'])).2.queue.length =
          (Rdp.new ['a']).queue.length) ∧
      (((fun t => (false, (pushTok t).2)) (Rdp.new ['a'])).1 = true →
        (Rdp.tryRule false (fun t => (false, (pushTok t).2)) (Rdp.new ['a'])).2.queue =
          ((fun t => (false, (pushTok t).2)) (Rdp.new ['a'])).2.queue) ∧
      ((false : Bool) = true ∨ ((fun t => (false, (pushTok t).2)) (Rdp.new ['a'])).1 = false →
        (Rdp.tryRule false (fun t => (false, (pushTok t).2)) (Rdp.new ['a'])).2.pos =
          (Rdp.new ['a']).pos) ∧
      ((false : Bool) = false → ((fun t => (false, (pushTok t).2)) (Rdp.new ['a'])).1 = true →
        (Rdp.tryRule false (fun t => (false, (pushTok t).2)) (Rdp.new ['a'])).2.pos =
          ((fun t => (false, (pushTok t).2)) (Rdp.new ['a'])).2.pos)) :=
  ⟨by decide, tryRule_asymmetry false (fun t => (false, (pushTok t).2)) (Rdp.new ['a']) (by decide)⟩

/-- Counterexample to claim C3 as stated: after `try(true, r)` with a rule
body that pushes a token and succeeds, the position is restored but the
queue keeps the pushed token, so the queue length does not equal its
pre-call value. -/
theorem tryRevert_queue_not_restored :
    (Rdp.tryRule true pushTok (Rdp.new [])).1 = true ∧
    (Rdp.tryRule true pushTok (Rdp.new [])).2.queue.length ≠ (Rdp.new []).queue.length := by
  decide

/-- Claim C3 amended: after `try(true, r)` the position always equals its
pre-call value, but the queue is only truncated back when `r` failed; when
`r` succeeds the queue is left exactly as `r` produced it. -/
theorem tryRevert_amended (rule : Rdp → Bool × Rdp) (s : Rdp)
    (h : s.queue.length ≤ (rule s).2.queue.length) :
    ((Rdp.tryRule true rule s).2.pos = s.pos) ∧
    ((rule s).1 = false → (Rdp.tryRule true rule s).2.queue.length = s.queue.length) ∧
    ((rule s).1 = true → (Rdp.tryRule true rule s).2.queue = (rule s).2.queue) := by
  rcases hrs : rule s with ⟨result, s1⟩
  rw [hrs] at h
  simp only [Rdp.tryRule, hrs]
  cases result <;> simp_all [List.length_take, Nat.min_eq_left h]

/-- Witness for the amended C3 at a concrete input. -/
theorem tryRevert_amended_witness :
    ((Rdp.new ['b']).queue.length ≤ (pushTok (Rdp.new ['b'])).2.queue.length) ∧
    (((Rdp.tryRule true pushTok (Rdp.new ['b'])).2.pos = (Rdp.new ['b']).pos) ∧
      ((pushTok (Rdp.new ['b'])).1 = false →
        (Rdp.tryRule true pushTok (Rdp.new ['b'])).2.queue.length =
          (Rdp.new ['b']).queue.length) ∧
      ((pushTok (Rdp.new ['b'])).1 = true →
        (Rdp.tryRule true pushTok (Rdp.new ['b'])).2.queue =
          (pushTok (Rdp.new ['b'])).2.queue)) :=
  ⟨by decide, tryRevert_amended pushTok (Rdp.new ['b']) (by decide)⟩

/-- Claim C5: outside atomic mode, one `track(tag, position)` call behaves
by cases on the stored failure state — insert-and-set on an empty set, add
on an equal position, clear-insert-update on a strictly deeper position,
and no change on a shallower position. -/
theorem track_step_cases (s : Rdp) (tag : Rule) (p : Nat) (h : s.atomic = false) :
    (s.failures = [] → s.track tag p = { s with failures := [tag], fail_pos := p }) ∧
    (s.failures ≠ [] → p = s.fail_pos →
      s.track tag p = { s with failures := s.failures ++ [tag] }) ∧
    (s.failures ≠ [] → s.fail_pos < p →
      s.track tag p = { s with failures := [tag], fail_pos := p }) ∧
    (s.failures ≠ [] → p < s.fail_pos → s.track tag p = s) := by
  unfold Rdp.track
  refine ⟨fun he => ?_, fun hne he => ?_, fun hne hlt => ?_, fun hne hlt => ?_⟩
  · simp [h, he]
  · simp [h, List.isEmpty_iff, hne, he]
  · have h1 : ¬ p = s.fail_pos := by omega
    simp [h, List.isEmpty_iff, hne, h1, hlt]
  · have h1 : ¬ p = s.fail_pos := by omega
    have h2 : ¬ p > s.fail_pos := by omega
    simp [h, List.isEmpty_iff, hne, h1, h2]

/-- Witness for C5 at a concrete state (empty failure set). -/
theorem track_step_cases_witness :
    ((Rdp.new ['a']).atomic = false) ∧
    (((Rdp.new ['a']).failures = [] →
      (Rdp.new ['a']).track 7 3 = { Rdp.new ['a'] with failures := [7], fail_pos := 3 }) ∧
    ((Rdp.new ['a']).failures ≠ [] → (3 : Nat) = (Rdp.new ['a']).fail_pos →
      (Rdp.new ['a']).track 7 3 = { Rdp.new ['a'] with failures := (Rdp.new ['a']).failures ++ [7] }) ∧
    ((Rdp.new ['a']).failures ≠ [] → (Rdp.new ['a']).fail_pos < 3 →
      (Rdp.new ['a']).track 7 3 = { Rdp.new ['a'] with failures := [7], fail_pos := 3 }) ∧
    ((Rdp.new ['a']).failures ≠ [] → 3 < (Rdp.new ['a']).fail_pos →
      (Rdp.new ['a']).track 7 3 = Rdp.new ['a'])) :=
  ⟨by decide, track_step_cases (Rdp.new ['a']) 7 3 (by decide)⟩

/-- Claim C7: while the atomic flag is set, `track`, `skip_ws` and
`skip_com` leave the entire parser state unchanged, for every tag,
position, fuel and recognizer closure — in particular the recognizers are
never invoked. -/
theorem atomic_suppression (s : Rdp) (tag : Rule) (p : Nat)
    (ws com : Rdp → Bool × Rdp) (fuel : Nat) (h : s.atomic = true) :
    s.track tag p = s ∧
    Rdp.skip_ws ws fuel s = some s ∧
    Rdp.skip_com com fuel s = some s := by
  unfold Rdp.track Rdp.skip_ws Rdp.skip_com
  simp [h]

/-- Witness for C7 at a concrete atomic state, with recognizers that would
consume input and mutate state if they were invoked. -/
theorem atomic_suppression_witness :
    ({ Rdp.new ['x'] with atomic := true }.atomic = true) ∧
    ({ Rdp.new ['x'] with atomic := true }.track 9 4 = { Rdp.new ['x'] with atomic := true } ∧
      Rdp.skip_ws advanceWs 5 { Rdp.new ['x'] with atomic := true } =
        some { Rdp.new ['x'] with atomic := true } ∧
      Rdp.skip_com advanceWs 5 { Rdp.new ['x'] with atomic := true } =
        some { Rdp.new ['x'] with atomic := true }) :=
  ⟨by decide, atomic_suppression { Rdp.new ['x'] with atomic := true } 9 4
    advanceWs advanceWs 5 (by decide)⟩

/-- Counterexample to claim C8 as stated: a failing `match_string` and a
failing `match_range` leave the failure tracker empty — no rule tag is
forwarded to it. -/
theorem match_primitive_no_track :
    (Rdp.match_string ['a'] (Rdp.new ['b'])).1 = false ∧
    (Rdp.match_string ['a'] (Rdp.new ['b'])).2.failures = [] ∧
    (Rdp.match_range 'x' 'z' (Rdp.new ['b'])).1 = false ∧
    (Rdp.match_range 'x' 'z' (Rdp.new ['b'])).2.failures = [] := by
  decide

/-- Claim C8 amended: `match_string` and `match_range` are thin delegations
to the input that never touch the failure tracker — the failure list and
deepest failure position are preserved on every call, and on failure the
whole state is unchanged (failure tracking is the calling rule body's
responsibility, as in `any`/`eoi`). -/
theorem match_primitives_tracker_frame (str : List Char) (lo hi : Char) (s : Rdp) :
    (Rdp.match_string str s).2.failures = s.failures ∧
    (Rdp.match_string str s).2.fail_pos = s.fail_pos ∧
    ((Rdp.match_string str s).1 = false → (Rdp.match_string str s).2 = s) ∧
    (Rdp.match_range lo hi s).2.failures = s.failures ∧
    (Rdp.match_range lo hi s).2.fail_pos = s.fail_pos ∧
    ((Rdp.match_range lo hi s).1 = false → (Rdp.match_range lo hi s).2 = s) := by
  unfold Rdp.match_string Rdp.match_range
  rcases hc : s.input[s.pos]? with _ | c <;>
    simp only [hc] <;> split_ifs <;> simp_all

/-- Counterexample to claim C9 as stated: a reachable state (a fresh parser
on empty input after one successful `eoi()` call) on which `reset()` does
not restore the construction-time state — `eoi_matched` stays set. -/
theorem reset_keeps_eoi_matched :
    ((Rdp.eoi (Rdp.new [])).2.reset).eoi_matched = true ∧
    (Rdp.eoi (Rdp.new [])).2.reset ≠ Rdp.new [] := by
  decide

/-- Claim C9 amended: `reset()` sets the position to 0 and clears the token
queue and the failure set (with its position), keeps the input, and leaves
all remaining per-parse state — the atomic flag, the comment guard, the
`eoi_matched` flag and the queue index cursor — untouched rather than
restoring it to its construction-time value. -/
theorem reset_fields (s : Rdp) :
    s.reset.pos = 0 ∧ s.reset.queue = [] ∧ s.reset.failures = [] ∧ s.reset.fail_pos = 0 ∧
    s.reset.input = s.input ∧ s.reset.queue_index = s.queue_index ∧
    s.reset.atomic = s.atomic ∧ s.reset.comment = s.comment ∧
    s.reset.eoi_matched = s.eoi_matched := by
  simp [Rdp.reset]

/-- The skip loop returns within the fuel bound whenever every successful
recognizer invocation strictly advances the position, keeps the input, and
stays within the input's length. -/
theorem skipLoop_isSome (ws : Rdp → Bool × Rdp)
    (hadv : ∀ t : Rdp, (ws t).1 = true →
      t.pos < (ws t).2.pos ∧ (ws t).2.input = t.input ∧ (ws t).2.pos ≤ t.input.length) :
    ∀ (fuel : Nat) (s : Rdp), s.input.length - s.pos < fuel →
      (Rdp.skipLoop ws fuel s).isSome := by
  intro fuel
  induction fuel with
  | zero => intro s hf; omega
  | succ f ih =>
    intro s hf
    rcases hw : ws s with ⟨b, s'⟩
    cases b
    · simp [Rdp.skipLoop, hw]
    · obtain ⟨h1, h2, h3⟩ := hadv s (by rw [hw])
      rw [hw] at h1 h2 h3
      simp only [Prod.snd] at h1 h2 h3
      simp only [Rdp.skipLoop, hw]
      exact ih s' (by rw [h2]; omega)

/-- With a recognizer that succeeds without advancing, the skip loop
consumes all its fuel and never exits. -/
theorem skipLoop_stuck : ∀ (fuel : Nat) (s : Rdp), Rdp.skipLoop stuckWs fuel s = none := by
  intro fuel
  induction fuel with
  | zero => intro s; rfl
  | succ f ih => intro s; simp [Rdp.skipLoop, stuckWs, ih]

/-- Claim C10: termination of whitespace/comment skipping. If every
successful invocation of the recognizer strictly advances the position
(staying within the input), then `skip_ws` and `skip_com` finish within
`input length - position + 1` loop iterations, whereas with a recognizer
that succeeds without advancing the skip loop exhausts any amount of fuel
without terminating. -/
theorem skip_termination (ws : Rdp → Bool × Rdp) (s : Rdp) (fuel : Nat)
    (hadv : ∀ t : Rdp, (ws t).1 = true →
      t.pos < (ws t).2.pos ∧ (ws t).2.input = t.input ∧ (ws t).2.pos ≤ t.input.length)
    (hfuel : s.input.length - s.pos < fuel) (hatomic : s.atomic = false) :
    (Rdp.skip_ws ws fuel s).isSome ∧
    (Rdp.skip_com ws fuel s).isSome ∧
    Rdp.skip_ws stuckWs fuel s = none := by
  refine ⟨?_, ?_, ?_⟩
  · simp only [Rdp.skip_ws, hatomic]
    simpa using skipLoop_isSome ws hadv fuel s hfuel
  · unfold Rdp.skip_com
    rw [if_neg (by simp [hatomic])]
    by_cases hc : s.comment
    · simp [hc]
    · rw [if_pos (by simp [hc]), Option.isSome_map']
      exact skipLoop_isSome ws hadv fuel { s with comment := true } (by simpa using hfuel)
  · simp [Rdp.skip_ws, hatomic, skipLoop_stuck]

/-- Witness for C10 at a concrete state and a concrete strictly-advancing
recognizer. -/
theorem skip_termination_witness :
    (Rdp.skip_ws advanceWs 3 (Rdp.new ['a', 'b'])).isSome ∧
    (Rdp.skip_com advanceWs 3 (Rdp.new ['a', 'b'])).isSome ∧
    Rdp.skip_ws stuckWs 3 (Rdp.new ['a', 'b']) = none :=
  skip_termination advanceWs (Rdp.new ['a', 'b']) 3
    (by
      intro t ht
      unfold advanceWs at ht ⊢
      split at ht
      · next hlt => simp [if_pos hlt]; omega
      · simp at ht)
    (by decide) (by decide)

theorem maxTrackedPos_cons (c : Rule × Nat) (l : List (Rule × Nat)) :
    maxTrackedPos (c :: l) = max c.2 (maxTrackedPos l) := rfl

theorem tagsAt_cons (p : Nat) (c : Rule × Nat) (l : List (Rule × Nat)) :
    tagsAt p (c :: l) = (if c.2 = p then [c.1] else []) ++ tagsAt p l := by
  by_cases h : c.2 = p <;> simp [tagsAt, List.filter_cons, h]

theorem trackSeq_cons (c : Rule × Nat) (l : List (Rule × Nat)) (s : Rdp) :
    trackSeq (c :: l) s = trackSeq l (s.track c.1 c.2) := rfl

theorem dedupConsec_cons₂_eq (b : Rule) (l : List Rule) :
    Rdp.dedupConsec (b :: b :: l) = Rdp.dedupConsec (b :: l) := by
  simp [Rdp.dedupConsec]

theorem dedupConsec_cons₂_ne (a b : Rule) (l : List Rule) (h : a ≠ b) :
    Rdp.dedupConsec (a :: b :: l) = a :: Rdp.dedupConsec (b :: l) := by
  simp [Rdp.dedupConsec, h]

/-- Running a sequence of `track` calls from a state with a nonempty
failure set: the resulting set and position are determined by whether the
sequence reaches strictly beyond the stored position. -/
theorem trackSeq_go : ∀ (rest : List (Rule × Nat)) (s : Rdp),
    s.atomic = false → s.failures ≠ [] →
    ((trackSeq rest s).failures =
      if s.fail_pos < maxTrackedPos rest then tagsAt (maxTrackedPos rest) rest
      else s.failures ++ tagsAt s.fail_pos rest) ∧
    (trackSeq rest s).fail_pos = max s.fail_pos (maxTrackedPos rest) := by
  intro rest
  induction rest with
  | nil =>
    intro s ha hf
    simp [trackSeq, maxTrackedPos, tagsAt]
  | cons c rest ih =>
    intro s ha hf
    rw [trackSeq_cons]
    by_cases h1 : c.2 = s.fail_pos
    · have ht : s.track c.1 c.2 = { s with failures := s.failures ++ [c.1] } := by
        unfold Rdp.track
        simp [ha, List.isEmpty_iff, hf, h1]
      obtain ⟨ihf, ihp⟩ := ih (s.track c.1 c.2)
        (by rw [ht]; exact ha) (by rw [ht]; simp)
      rw [ht] at ihf ihp
      simp only at ihf ihp
      rw [ht]
      constructor
      · rw [ihf, maxTrackedPos_cons]
        by_cases hlt : s.fail_pos < maxTrackedPos rest
        · rw [if_pos hlt, show max c.2 (maxTrackedPos rest) = maxTrackedPos rest from by omega,
            if_pos hlt, tagsAt_cons, if_neg (by omega)]
          simp
        · rw [if_neg hlt, show max c.2 (maxTrackedPos rest) = s.fail_pos from by omega,
            if_neg (by omega), tagsAt_cons, if_pos h1]
          simp
      · rw [ihp, maxTrackedPos_cons]
        omega
    · by_cases h2 : s.fail_pos < c.2
      · have ht : s.track c.1 c.2 = { s with failures := [c.1], fail_pos := c.2 } := by
          unfold Rdp.track
          simp [ha, List.isEmpty_iff, hf, h1, h2]
        obtain ⟨ihf, ihp⟩ := ih (s.track c.1 c.2)
          (by rw [ht]; exact ha) (by rw [ht]; simp)
        rw [ht] at ihf ihp
        simp only at ihf ihp
        rw [ht]
        constructor
        · rw [ihf, maxTrackedPos_cons]
          by_cases hpm : c.2 < maxTrackedPos rest
          · rw [if_pos hpm, show max c.2 (maxTrackedPos rest) = maxTrackedPos rest from by omega,
              if_pos (by omega), tagsAt_cons, if_neg (by omega)]
            simp
          · rw [if_neg hpm, show max c.2 (maxTrackedPos rest) = c.2 from by omega,
              if_pos h2, tagsAt_cons, if_pos rfl]
        · rw [ihp, maxTrackedPos_cons]
          omega
      · have ht : s.track c.1 c.2 = s := by
          unfold Rdp.track
          simp [ha, List.isEmpty_iff, hf, h1]
          omega
        obtain ⟨ihf, ihp⟩ := ih (s.track c.1 c.2)
          (by rw [ht]; exact ha) (by rw [ht]; exact hf)
        rw [ht] at ihf ihp
        rw [ht]
        constructor
        · rw [ihf, maxTrackedPos_cons]
          by_cases hlt : s.fail_pos < maxTrackedPos rest
          · rw [if_pos hlt, show max c.2 (maxTrackedPos rest) = maxTrackedPos rest from by omega,
              if_pos hlt, tagsAt_cons, if_neg (by omega)]
            simp
          · rw [if_neg hlt, if_neg (show ¬ s.fail_pos < max c.2 (maxTrackedPos rest) from by omega),
              tagsAt_cons, if_neg h1]
            simp
        · rw [ihp, maxTrackedPos_cons]
          omega

/-- Running a sequence of `track` calls from a state with an empty failure
set at position 0 (the reset state): the failure set ends up holding the
tags passed at the maximum tracked position, in call order, and `fail_pos`
ends up at that maximum. -/
theorem trackSeq_from_empty (calls : List (Rule × Nat)) (s0 : Rdp)
    (ha : s0.atomic = false) (hf : s0.failures = []) (hp : s0.fail_pos = 0) :
    (trackSeq calls s0).failures = tagsAt (maxTrackedPos calls) calls ∧
    (trackSeq calls s0).fail_pos = maxTrackedPos calls := by
  cases calls with
  | nil => simp [trackSeq, tagsAt, maxTrackedPos, hf, hp]
  | cons c rest =>
    have ht : s0.track c.1 c.2 = { s0 with failures := s0.failures ++ [c.1], fail_pos := c.2 } := by
      unfold Rdp.track
      simp [ha, hf]
    rw [trackSeq_cons]
    obtain ⟨ihf, ihp⟩ := trackSeq_go rest (s0.track c.1 c.2)
      (by rw [ht]; exact ha) (by rw [ht]; simp)
    rw [ht, hf] at ihf ihp
    simp only [List.nil_append] at ihf ihp
    rw [ht, hf]
    simp only [List.nil_append]
    constructor
    · rw [ihf, maxTrackedPos_cons]
      by_cases hpm : c.2 < maxTrackedPos rest
      · rw [if_pos hpm, show max c.2 (maxTrackedPos rest) = maxTrackedPos rest from by omega,
          tagsAt_cons, if_neg (by omega)]
        simp
      · rw [if_neg hpm, show max c.2 (maxTrackedPos rest) = c.2 from by omega,
          tagsAt_cons, if_pos rfl]
    · rw [ihp, maxTrackedPos_cons]

theorem dedupConsec_sublist : ∀ l : List Rule, List.Sublist (Rdp.dedupConsec l) l := by
  intro l
  induction l using Rdp.dedupConsec.induct with
  | case1 => simp [Rdp.dedupConsec]
  | case2 a => simp [Rdp.dedupConsec]
  | case3 b l ih =>
    rw [dedupConsec_cons₂_eq]
    exact ih.trans (List.sublist_cons_self _ _)
  | case4 a b l hab ih =>
    rw [dedupConsec_cons₂_ne a b l hab]
    exact ih.cons₂ _

theorem mem_dedupConsec : ∀ (l : List Rule) (a : Rule),
    a ∈ Rdp.dedupConsec l ↔ a ∈ l := by
  intro l
  induction l using Rdp.dedupConsec.induct with
  | case1 => simp [Rdp.dedupConsec]
  | case2 x => simp [Rdp.dedupConsec]
  | case3 b l ih =>
    intro a
    rw [dedupConsec_cons₂_eq, ih a]
    simp
  | case4 x b l hab ih =>
    intro a
    rw [dedupConsec_cons₂_ne x b l hab, List.mem_cons, ih a]
    simp

theorem dedupConsec_nodup : ∀ l : List Rule, l.Sorted (· ≤ ·) →
    (Rdp.dedupConsec l).Nodup := by
  intro l
  induction l using Rdp.dedupConsec.induct with
  | case1 => simp [Rdp.dedupConsec]
  | case2 a => simp [Rdp.dedupConsec]
  | case3 b l ih =>
    intro hs
    rw [dedupConsec_cons₂_eq]
    exact ih hs.of_cons
  | case4 a b l hab ih =>
    intro hs
    rw [dedupConsec_cons₂_ne a b l hab, List.nodup_cons]
    refine ⟨fun hmem => ?_, ih hs.of_cons⟩
    rw [mem_dedupConsec] at hmem
    have hle : ∀ x ∈ b :: l, a ≤ x := fun x hx => (List.pairwise_cons.mp hs).1 x hx
    have hb : ∀ x ∈ l, b ≤ x := fun x hx => (List.pairwise_cons.mp hs.of_cons).1 x hx
    have hab' : a < b := lt_of_le_of_ne (hle b (List.mem_cons_self b l)) hab
    rcases List.mem_cons.mp hmem with rfl | hl
    · exact absurd rfl (ne_of_lt hab')
    · exact absurd rfl (ne_of_lt (lt_of_lt_of_le hab' (hb a hl)))

theorem dedupConsec_of_nodup : ∀ l : List Rule, l.Nodup → Rdp.dedupConsec l = l := by
  intro l
  induction l using Rdp.dedupConsec.induct with
  | case1 => simp [Rdp.dedupConsec]
  | case2 a => simp [Rdp.dedupConsec]
  | case3 b l ih =>
    intro hn
    exact absurd (List.mem_cons_self b l) (List.nodup_cons.mp hn).1
  | case4 a b l hab ih =>
    intro hn
    rw [dedupConsec_cons₂_ne a b l hab, ih (List.nodup_cons.mp hn).2]

/-- Claim C6: furthest-failure summary. After any sequence of non-atomic
`track` calls since the last `reset()`, `expected()` reports as position
the maximum position ever passed to `track`, and as tags the sorted,
deduplicated list of exactly those tags passed together with that maximum
position (same underlying set); moreover `expected()` only rewrites its
storage to that sorted deduplicated form — it never clears it — and a
repeated call returns the same pair. -/
theorem expected_furthest_failure (calls : List (Rule × Nat)) (s : Rdp)
    (h : s.atomic = false) :
    ((trackSeq calls s.reset).expected.1.2 = maxTrackedPos calls) ∧
    ((trackSeq calls s.reset).expected.1.1 =
      Rdp.dedupConsec (Rdp.sortRules (tagsAt (maxTrackedPos calls) calls))) ∧
    ((trackSeq calls s.reset).expected.1.1.Sorted (· ≤ ·)) ∧
    ((trackSeq calls s.reset).expected.1.1.Nodup) ∧
    ((trackSeq calls s.reset).expected.1.1.toFinset =
      (tagsAt (maxTrackedPos calls) calls).toFinset) ∧
    ((trackSeq calls s.reset).expected.2.failures =
      (trackSeq calls s.reset).expected.1.1) ∧
    ((trackSeq calls s.reset).expected.2.expected = (trackSeq calls s.reset).expected) := by
  obtain ⟨hfail, hpos⟩ := trackSeq_from_empty calls s.reset h rfl rfl
  have hsorted : ∀ l : List Rule, (Rdp.sortRules l).Sorted (· ≤ ·) := fun l =>
    List.sorted_insertionSort (· ≤ ·) l
  have hsd : ∀ l : List Rule, (Rdp.dedupConsec (Rdp.sortRules l)).Sorted (· ≤ ·) := fun l =>
    List.Pairwise.sublist (dedupConsec_sublist _) (hsorted l)
  have hnd : ∀ l : List Rule, (Rdp.dedupConsec (Rdp.sortRules l)).Nodup := fun l =>
    dedupConsec_nodup _ (hsorted l)
  refine ⟨?_, ?_, ?_, ?_, ?_, ?_, ?_⟩
  · simp [Rdp.expected, hpos]
  · simp [Rdp.expected, hfail]
  · simp only [Rdp.expected]
    exact hsd _
  · simp only [Rdp.expected]
    exact hnd _
  · simp only [Rdp.expected]
    ext a
    simp [List.mem_toFinset, mem_dedupConsec, Rdp.sortRules,
      (List.perm_insertionSort (· ≤ ·) _).mem_iff, hfail]
  · simp [Rdp.expected]
  · simp only [Rdp.expected]
    have h1 : Rdp.sortRules (Rdp.dedupConsec (Rdp.sortRules
        (trackSeq calls s.reset).failures)) =
        Rdp.dedupConsec (Rdp.sortRules (trackSeq calls s.reset).failures) :=
      List.Sorted.insertionSort_eq (hsd _)
    have h2 : Rdp.dedupConsec (Rdp.dedupConsec (Rdp.sortRules
        (trackSeq calls s.reset).failures)) =
        Rdp.dedupConsec (Rdp.sortRules (trackSeq calls s.reset).failures) :=
      dedupConsec_of_nodup _ (hnd _)
    simp only [h1, h2]

/-- Witness for C6 at a concrete call sequence: calls at positions 2, 1, 2
with tags 5, 3, 4 — the summary is position 2 with sorted deduplicated
tags [4, 5]. -/
theorem expected_furthest_failure_witness :
    ((trackSeq [(5, 2), (3, 1), (5, 2), (4, 2)] (Rdp.new ['a', 'b', 'c']).reset).expected.1.2 =
      maxTrackedPos [(5, 2), (3, 1), (5, 2), (4, 2)]) ∧
    ((trackSeq [(5, 2), (3, 1), (5, 2), (4, 2)] (Rdp.new ['a', 'b', 'c']).reset).expected.1.1 =
      Rdp.dedupConsec (Rdp.sortRules (tagsAt
        (maxTrackedPos [(5, 2), (3, 1), (5, 2), (4, 2)]) [(5, 2), (3, 1), (5, 2), (4, 2)]))) ∧
    ((trackSeq [(5, 2), (3, 1), (5, 2), (4, 2)]
      (Rdp.new ['a', 'b', 'c']).reset).expected.1.1.Sorted (· ≤ ·)) ∧
    ((trackSeq [(5, 2), (3, 1), (5, 2), (4, 2)]
      (Rdp.new ['a', 'b', 'c']).reset).expected.1.1.Nodup) ∧
    ((trackSeq [(5, 2), (3, 1), (5, 2), (4, 2)]
      (Rdp.new ['a', 'b', 'c']).reset).expected.1.1.toFinset =
      (tagsAt (maxTrackedPos [(5, 2), (3, 1), (5, 2), (4, 2)])
        [(5, 2), (3, 1), (5, 2), (4, 2)]).toFinset) ∧
    ((trackSeq [(5, 2), (3, 1), (5, 2), (4, 2)] (Rdp.new ['a', 'b', 'c']).reset).expected.2.failures =
      (trackSeq [(5, 2), (3, 1), (5, 2), (4, 2)] (Rdp.new ['a', 'b', 'c']).reset).expected.1.1) ∧
    ((trackSeq [(5, 2), (3, 1), (5, 2), (4, 2)] (Rdp.new ['a', 'b', 'c']).reset).expected.2.expected =
      (trackSeq [(5, 2), (3, 1), (5, 2), (4, 2)] (Rdp.new ['a', 'b', 'c']).reset).expected) :=
  expected_furthest_failure [(5, 2), (3, 1), (5, 2), (4, 2)] (Rdp.new ['a', 'b', 'c']) (by decide)

/-- Claim C1: precedence and associativity of `prec_climb`. With `+`
left-associative of precedence 1, `^` right-associative of precedence 2 and
single-letter primaries: parsing "a+b+c" produces the queue in which the
token synthesized for the second `+` (⟨plusR, 0, 5⟩, at index 0) spans the
whole expression and contains the nested token for the first `+`
(⟨plusR, 0, 3⟩, at index 1); parsing "a^b^c" produces the queue in which
the token for the first `^` (⟨caretR, 0, 5⟩, at index 0) spans the whole
expression and contains the nested token for the second `^`
(⟨caretR, 2, 5⟩, at index 2) — the opposite nesting. -/
theorem prec_climb_associativity :
    ((parseExpr 10 "a+b+c".toList).queue =
      [⟨plusR, 0, 5⟩, ⟨plusR, 0, 3⟩, ⟨letterR, 0, 1⟩, ⟨letterR, 2, 3⟩, ⟨letterR, 4, 5⟩]) ∧
    (spanContains ⟨plusR, 0, 5⟩ ⟨plusR, 0, 3⟩ ∧ ¬ spanContains ⟨plusR, 0, 3⟩ ⟨plusR, 0, 5⟩) ∧
    ((parseExpr 10 "a^b^c".toList).queue =
      [⟨caretR, 0, 5⟩, ⟨letterR, 0, 1⟩, ⟨caretR, 2, 5⟩, ⟨letterR, 2, 3⟩, ⟨letterR, 4, 5⟩]) ∧
    (spanContains ⟨caretR, 0, 5⟩ ⟨caretR, 2, 5⟩ ∧ ¬ spanContains ⟨caretR, 2, 5⟩ ⟨caretR, 0, 5⟩) := by
  decide

theorem insertIdx_eq {α : Type} : ∀ (l : List α) (n : Nat) (a : α), n ≤ l.length →
    l.insertIdx n a = l.take n ++ a :: l.drop n := by
  intro l
  induction l with
  | nil =>
    intro n a h
    simp at h
    subst h
    simp [List.insertIdx]
  | cons x xs ih =>
    intro n a h
    cases n with
    | zero => simp [List.insertIdx]
    | succ m =>
      simp only [List.insertIdx_succ_cons, List.take_succ_cons, List.drop_succ_cons,
        List.cons_append]
      rw [ih m a (by simpa using h)]

theorem take_of_take_eq {α : Type} (pos k : Nat) (q q' : List α) (hpos : pos ≤ k)
    (h : q'.take k = q.take k) : q'.take pos = q.take pos := by
  have h1 : (q'.take k).take pos = (q.take k).take pos := by rw [h]
  simpa [List.take_take, Nat.min_eq_left hpos] using h1

theorem mem_drop_split {α : Type} (pos k : Nat) (q : List α) (hpos : pos ≤ k)
    (hk : k ≤ q.length) (t : α) (ht : t ∈ q.drop pos) :
    t ∈ (q.take k).drop pos ∨ t ∈ q.drop k := by
  have hdec : q.drop pos = (q.take k).drop pos ++ q.drop k := by
    conv in q.drop pos => rw [← List.take_append_drop k q]
    rw [List.drop_append_of_le_length (by simpa [Nat.min_eq_left hk] using hpos)]
  rw [hdec] at ht
  exact List.mem_append.mp ht

theorem take_insertIdx_self {α : Type} (q : List α) (pos : Nat) (a : α)
    (h : pos ≤ q.length) : (q.insertIdx pos a).take pos = q.take pos := by
  rw [insertIdx_eq q pos a h]
  have hlen : (q.take pos).length = pos := by simp [Nat.min_eq_left h]
  calc ((q.take pos) ++ a :: q.drop pos).take pos
      = ((q.take pos) ++ a :: q.drop pos).take (q.take pos).length := by rw [hlen]
    _ = q.take pos := List.take_left _ _

theorem mem_insertIdx_split {α : Type} (q : List α) (pos : Nat) (a : α) (h : pos ≤ q.length)
    (t : α) (ht : t ∈ q.insertIdx pos a) : t = a ∨ t ∈ q := by
  rw [insertIdx_eq q pos a h] at ht
  rcases List.mem_append.mp ht with h1 | h2
  · exact Or.inr (List.mem_of_mem_take h1)
  · rcases List.mem_cons.mp h2 with rfl | h3
    · exact Or.inl rfl
    · exact Or.inr (List.mem_of_mem_drop h3)

theorem length_insertIdx_self {α : Type} (q : List α) (pos : Nat) (a : α)
    (h : pos ≤ q.length) : (q.insertIdx pos a).length = q.length + 1 :=
  List.length_insertIdx pos q h

theorem drop_insertIdx_self {α : Type} (q : List α) (pos : Nat) (a : α)
    (h : pos ≤ q.length) : (q.insertIdx pos a).drop pos = a :: q.drop pos := by
  rw [insertIdx_eq q pos a h]
  have hlen : (q.take pos).length = pos := by simp [Nat.min_eq_left h]
  calc ((q.take pos) ++ a :: q.drop pos).drop pos
      = ((q.take pos) ++ a :: q.drop pos).drop (q.take pos).length := by rw [hlen]
    _ = a :: q.drop pos := List.drop_left _ _

theorem orderedContainment_append (q : List Token) (T : Token)
    (h : orderedContainment q) (hT : ∀ a ∈ q, ¬ spanContains T a) :
    orderedContainment (q ++ [T]) := by
  unfold orderedContainment at *
  rw [List.pairwise_append]
  refine ⟨h, List.pairwise_singleton _ _, ?_⟩
  intro a ha b hb
  rcases List.mem_singleton.mp hb with rfl
  exact hT a ha

theorem orderedContainment_insertIdx (q : List Token) (pos : Nat) (T : Token)
    (h : pos ≤ q.length) (hord : orderedContainment q)
    (hbefore : ∀ a ∈ q.take pos, ¬ spanContains T a)
    (hafter : ∀ b ∈ q.drop pos, ¬ spanContains b T) :
    orderedContainment (q.insertIdx pos T) := by
  rw [insertIdx_eq q pos T h]
  have hq : orderedContainment (q.take pos ++ q.drop pos) := by
    rw [List.take_append_drop]
    exact hord
  unfold orderedContainment at hq ⊢
  rw [List.pairwise_append] at hq
  rw [List.pairwise_append]
  refine ⟨hq.1, ?_, ?_⟩
  · rw [List.pairwise_cons]
    exact ⟨fun b hb => hafter b hb, hq.2.1⟩
  · intro a ha b hb
    rcases List.mem_cons.mp hb with rfl | hb'
    · exact hbefore a ha
    · exact hq.2.2 a ha b hb'

/-- Behaviour of the scenario primary: it either fails leaving the state
unchanged, or consumes one character and pushes a one-character token for
it. -/
theorem letterPrimary_cases (s : Rdp) :
    letterPrimary s = (false, s) ∨
    letterPrimary s =
      (true, { s with pos := s.pos + 1, queue := s.queue ++ [⟨letterR, s.pos, s.pos + 1⟩] }) := by
  unfold letterPrimary Rdp.match_range
  rcases hc : s.input[s.pos]? with _ | c
  · exact Or.inl rfl
  · by_cases hr : 'a' ≤ c ∧ c ≤ 'z'
    · exact Or.inr (by simp [hr])
    · exact Or.inl (by simp [hr])

/-- Behaviour of the scenario operator lookup: it either fails leaving the
state unchanged, or consumes exactly one character and returns an operator
triple. -/
theorem opClimb_cases (s : Rdp) :
    ((opClimb s).1 = none ∧ (opClimb s).2 = s) ∨
    ((opClimb s).1.isSome = true ∧ (opClimb s).2 = { s with pos := s.pos + 1 }) := by
  unfold opClimb Rdp.match_string
  by_cases h1 : Rdp.matchesAt s.input s.pos ['+']
  · exact Or.inr (by simp [h1])
  · by_cases h2 : Rdp.matchesAt s.input s.pos ['^']
    · exact Or.inr (by simp [h1, h2])
    · exact Or.inl (by simp [h1, h2])

/-- A frame that returns its arguments unchanged satisfies the
postcondition whenever the precondition held. -/
theorem pcPost_id (pos left : Nat) (op : Option Op) (lr : Option Nat) (s : Rdp)
    (h : PcPre pos left op lr s) : PcPost pos left s ((op, lr), s) := by
  obtain ⟨hq, hr, hlr, hstrict⟩ := h
  exact ⟨hq, hr, rfl, Nat.le_refl _, rfl, hlr, hstrict⟩

/-- Composition of a frame's postcondition across an earlier state. -/
theorem pcPost_trans (pos left : Nat) (s s4 : Rdp) (r : (Option Op × Option Nat) × Rdp)
    (h : PcPost pos left s4 r) (hinput : s4.input = s.input) (hpos : s.pos ≤ s4.pos)
    (htake : s4.queue.take pos = s.queue.take pos) : PcPost pos left s r := by
  obtain ⟨h1, h2, h3, h4, h5, h6, h7⟩ := h
  exact ⟨h1, h2, h3.trans hinput, hpos.trans h4, h5.trans htake, h6, h7⟩

theorem pcLoop_none_eq (fuel pos left min_prec : Nat) (lr : Option Nat) (s : Rdp) :
    Rdp.pcLoop letterPrimary opClimb fuel pos left min_prec none lr s = ((none, lr), s) := by
  cases fuel <;> rfl

theorem pcInner_none_eq (fuel prec queue_pos new_pos : Nat) (lr : Option Nat) (s : Rdp) :
    Rdp.pcInner letterPrimary opClimb fuel prec queue_pos new_pos none lr s = ((none, lr), s) := by
  cases fuel <;> rfl

/-- Tail of one `pcLoop` iteration: given the state after the primary, the
operator lookup and the inner climbing loop, compute the right edge,
optionally insert the synthesized operator token at the frame's insertion
index, and continue the loop.  The hypotheses record the facts established
by the first half of the iteration. -/
theorem pcIter_tail (f pos left min_prec : Nat) (op3 : Option Op) (lr2 : Option Nat)
    (right2 right3 : Nat) (lr3 : Option Nat) (s s3 s4 : Rdp)
    (ihL : ∀ (pos' left' mp' : Nat) (op' : Option Op) (lr' : Option Nat) (s' : Rdp),
      PcPre pos' left' op' lr' s' →
      PcPost pos' left' s' (Rdp.pcLoop letterPrimary opClimb f pos' left' mp' op' lr' s'))
    (F1 : s3.input = s.input)
    (F2 : s.pos ≤ s3.pos)
    (F3 : s3.queue.take pos = s.queue.take pos)
    (F4 : QInv s3)
    (F5a : pos ≤ s3.queue.length)
    (F5b : ∀ b ∈ s3.queue.drop pos, left ≤ b.start ∧ (left < b.start ∨ b.stop < right2))
    (F6 : ∀ p : Nat, lr2 = some p → p ≤ s3.pos)
    (F7 : op3.isSome = true →
      (∀ t ∈ s3.queue, t.stop < s3.pos) ∧ (∀ p : Nat, lr2 = some p → p < s3.pos))
    (F8a : right2 ≤ s3.pos)
    (F8b : left < right2)
    (F9 : op3.isSome = true → right2 < s3.pos)
    (F10 : ∀ t ∈ s.queue.take pos, t.start < left ∧ t.stop ≤ left)
    (hr3 : (lr2 = none ∧ right3 = right2 ∧ lr3 = some right2) ∨
           (∃ p : Nat, lr2 = some p ∧ right3 = max p right2 ∧ lr3 = some p))
    (hs4 : s4 = s3 ∨
           ∃ r : Rule, s4 = { s3 with queue := s3.queue.insertIdx pos ⟨r, left, right3⟩ }) :
    PcPost pos left s (Rdp.pcLoop letterPrimary opClimb f pos left min_prec op3 lr3 s4) := by
  have hr23 : right2 ≤ right3 := by
    rcases hr3 with ⟨_, h, _⟩ | ⟨p, _, h, _⟩
    · omega
    · rw [h]; exact Nat.le_max_right _ _
  have hr3pos : right3 ≤ s3.pos := by
    rcases hr3 with ⟨_, h, _⟩ | ⟨p, hp, h, _⟩
    · omega
    · have := F6 p hp
      rw [h]; omega
  have hlr3 : ∀ p : Nat, lr3 = some p → p ≤ s3.pos := by
    rcases hr3 with ⟨_, _, h⟩ | ⟨p, hp, _, h⟩
    · intro q hq; rw [h] at hq
      cases hq; omega
    · intro q hq; rw [h] at hq
      cases hq; exact F6 p hp
  have hstrict3 : op3.isSome = true → right3 < s3.pos ∧ (∀ p : Nat, lr3 = some p → p < s3.pos) := by
    intro hop
    have h9 := F9 hop
    rcases hr3 with ⟨_, h, h'⟩ | ⟨p, hp, h, h'⟩
    · constructor
      · omega
      · intro q hq; rw [h'] at hq; cases hq; omega
    · have hps := (F7 hop).2 p hp
      constructor
      · rw [h]; omega
      · intro q hq; rw [h'] at hq; cases hq; omega
  have hleft3 : left < s3.pos := lt_of_lt_of_le F8b F8a
  -- the token possibly inserted
  rcases hs4 with heq | ⟨r, heq⟩
  · -- no token synthesized (silent operator)
    rw [heq]
    have hpre4 : PcPre pos left op3 lr3 s3 := by
      refine ⟨F4, ⟨F5a, hleft3, fun t ht => (F5b t ht).1, ?_⟩, hlr3, ?_⟩
      · intro t ht
        rw [F3] at ht
        exact F10 t ht
      · intro hop
        exact ⟨(F7 hop).1, (hstrict3 hop).2⟩
    exact pcPost_trans pos left s s3 _ (ihL pos left min_prec op3 lr3 s3 hpre4) F1 F2 F3
  · -- a token for the operator is inserted at the frame's insertion index
    rw [heq]
    have hT : ∀ b ∈ s3.queue.drop pos, ¬ spanContains b ⟨r, left, right3⟩ := by
      intro b hb hcon
      obtain ⟨hb1, hb2⟩ := F5b b hb
      rcases hb2 with hlt | hstop
      · exact absurd hcon.1 (by simp only [Token.mk.injEq]; omega)
      · have : right3 ≤ b.stop := hcon.2
        omega
    have hTbefore : ∀ a ∈ s3.queue.take pos, ¬ spanContains ⟨r, left, right3⟩ a := by
      intro a ha hcon
      rw [F3] at ha
      have := (F10 a ha).1
      have h1 : left ≤ a.start := hcon.1
      omega
    have hq4 : QInv { s3 with queue := s3.queue.insertIdx pos ⟨r, left, right3⟩ } := by
      constructor
      · intro t ht
        simp only at ht
        rcases mem_insertIdx_split s3.queue pos _ F5a t ht with rfl | hold
        · exact ⟨hr3pos, lt_of_lt_of_le F8b hr23⟩
        · exact F4.1 t hold
      · exact orderedContainment_insertIdx s3.queue pos _ F5a F4.2 hTbefore hT
    have hreg4 : RegionInv pos left { s3 with queue := s3.queue.insertIdx pos ⟨r, left, right3⟩ } := by
      refine ⟨?_, hleft3, ?_, ?_⟩
      · simp only [length_insertIdx_self s3.queue pos _ F5a]
        omega
      · intro t ht
        simp only [drop_insertIdx_self s3.queue pos _ F5a] at ht
        rcases List.mem_cons.mp ht with rfl | ht'
        · exact Nat.le_refl _
        · exact (F5b t ht').1
      · intro t ht
        simp only [take_insertIdx_self s3.queue pos _ F5a] at ht
        rw [F3] at ht
        exact F10 t ht
    have htake4 : ({ s3 with queue := s3.queue.insertIdx pos ⟨r, left, right3⟩ } : Rdp).queue.take pos =
        s.queue.take pos := by
      simp only [take_insertIdx_self s3.queue pos _ F5a]
      exact F3
    have hpre4 : PcPre pos left op3 lr3
        { s3 with queue := s3.queue.insertIdx pos ⟨r, left, right3⟩ } := by
      refine ⟨hq4, hreg4, hlr3, ?_⟩
      intro hop
      refine ⟨?_, (hstrict3 hop).2⟩
      intro t ht
      simp only at ht
      rcases mem_insertIdx_split s3.queue pos _ F5a t ht with rfl | hold
      · exact (hstrict3 hop).1
      · exact (F7 hop).1 t hold
    exact pcPost_trans pos left s _ _
      (ihL pos left min_prec op3 lr3 _ hpre4) F1 F2 htake4

/-- The `prec_climb` loops preserve the queue invariants: main induction on
the fuel, simultaneously for the outer loop and the inner climbing loop. -/
theorem pc_spec : ∀ fuel : Nat,
    (∀ (pos left min_prec : Nat) (op : Option Op) (lr : Option Nat) (s : Rdp),
      PcPre pos left op lr s →
      PcPost pos left s (Rdp.pcLoop letterPrimary opClimb fuel pos left min_prec op lr s)) ∧
    (∀ (prec queue_pos new_pos : Nat) (op : Option Op) (lr : Option Nat) (s : Rdp),
      PcPre queue_pos new_pos op lr s →
      PcPost queue_pos new_pos s
        (Rdp.pcInner letterPrimary opClimb fuel prec queue_pos new_pos op lr s)) := by
  intro fuel
  induction fuel with
  | zero =>
    constructor
    · intro pos left min_prec op lr s hpre
      exact pcPost_id pos left op lr s hpre
    · intro prec qp np op lr s hpre
      exact pcPost_id qp np op lr s hpre
  | succ f ih =>
    obtain ⟨ihL, ihI⟩ := ih
    constructor
    · -- one step of the outer loop
      intro pos left min_prec op lr s hpre
      rcases op with _ | ⟨rule, prec, assoc⟩
      · rw [pcLoop_none_eq]
        exact pcPost_id pos left none lr s hpre
      · by_cases hge : prec ≥ min_prec
        · obtain ⟨⟨hstops, hord⟩, ⟨hlen, hleft, hdrop, htake⟩, hlrb, hst⟩ := hpre
          have hstrict := hst rfl
          simp only [Rdp.pcLoop]
          rw [if_pos hge]
          obtain ⟨⟨b1, s1⟩, hprim0⟩ : ∃ x, letterPrimary s = x := ⟨_, rfl⟩
          simp only [hprim0]
          rcases letterPrimary_cases s with hA | hA <;> rw [hprim0] at hA
          · -- primary failed: nothing pushed, lookup at the old length is empty
            have hs1 : s1 = s := congrArg Prod.snd hA
            rw [hs1]
            have hq0 : s.queue[s.queue.length]? = none :=
              List.getElem?_eq_none (Nat.le_refl _)
            simp only [hq0]
            obtain ⟨⟨op2, s2⟩, hcl⟩ : ∃ x, opClimb s = x := ⟨_, rfl⟩
            simp only [hcl]
            rcases opClimb_cases s with ⟨h1, h2⟩ | ⟨h1, h2⟩ <;> rw [hcl] at h1 h2
            · -- no operator follows: the inner loop is the identity
              have h1' : op2 = none := h1
              have h2' : s2 = s := h2
              subst h1'
              rw [h2']
              rw [pcInner_none_eq]
              have tail := fun (right3 : Nat) (lr3 : Option Nat) (s4 : Rdp) h1 h2 =>
                pcIter_tail f pos left min_prec none lr s.pos right3 lr3 s s s4 ihL
                  rfl (Nat.le_refl _) rfl ⟨hstops, hord⟩ hlen
                  (fun b hb => ⟨hdrop b hb, Or.inr (hstrict.1 b (List.mem_of_mem_drop hb))⟩)
                  hlrb (fun h => by simp at h) (Nat.le_refl _) hleft
                  (fun h => by simp at h) htake h1 h2
              rcases lr with _ | p <;> rcases rule with _ | r
              · exact tail s.pos (some s.pos) s (Or.inl ⟨rfl, rfl, rfl⟩) (Or.inl rfl)
              · exact tail s.pos (some s.pos) _ (Or.inl ⟨rfl, rfl, rfl⟩) (Or.inr ⟨r, rfl⟩)
              · exact tail (max p s.pos) (some p) s (Or.inr ⟨p, rfl, rfl, rfl⟩) (Or.inl rfl)
              · exact tail (max p s.pos) (some p) _ (Or.inr ⟨p, rfl, rfl, rfl⟩) (Or.inr ⟨r, rfl⟩)
            · -- an operator follows: run the inner loop via the induction hypothesis
              have h1' : op2.isSome = true := h1
              have h2' : s2 = { s with pos := s.pos + 1 } := h2
              have e1 : s2.pos = s.pos + 1 := by rw [h2']
              have e2 : s2.queue = s.queue := by rw [h2']
              have e3 : s2.input = s.input := by rw [h2']
              have hpre2 : PcPre s.queue.length s.pos op2 lr s2 := by
                refine ⟨⟨?_, ?_⟩, ⟨?_, ?_, ?_, ?_⟩, ?_, ?_⟩
                · intro t ht
                  rw [e2] at ht
                  obtain ⟨h3, h4⟩ := hstops t ht
                  exact ⟨by omega, h4⟩
                · rw [e2]; exact hord
                · rw [e2]
                · omega
                · intro t ht
                  rw [e2, List.drop_length] at ht
                  cases ht
                · intro t ht
                  rw [e2, List.take_length] at ht
                  obtain ⟨h3, h4⟩ := hstops t ht
                  exact ⟨by omega, h3⟩
                · intro p hp
                  have := hlrb p hp
                  omega
                · intro _
                  refine ⟨?_, ?_⟩
                  · intro t ht
                    rw [e2] at ht
                    have := (hstops t ht).1
                    omega
                  · intro p hp
                    have := hlrb p hp
                    omega
              obtain ⟨⟨⟨op3, lr2⟩, s3⟩, hinner⟩ :
                  ∃ x, Rdp.pcInner letterPrimary opClimb f prec s.queue.length s.pos op2 lr s2 = x :=
                ⟨_, rfl⟩
              simp only [hinner]
              have hpost := ihI prec s.queue.length s.pos op2 lr s2 hpre2
              rw [hinner] at hpost
              obtain ⟨PQ0, PR0, Pin0, Ppos0, Ptk0, Plr0, Pst0⟩ := hpost
              have PQ : QInv s3 := PQ0
              have Pin : s3.input = s2.input := Pin0
              have Ppos : s2.pos ≤ s3.pos := Ppos0
              have Ptk : s3.queue.take s.queue.length = s2.queue.take s.queue.length := Ptk0
              have Plr : ∀ p : Nat, lr2 = some p → p ≤ s3.pos := Plr0
              have Pst : op3.isSome = true →
                  (∀ t ∈ s3.queue, t.stop < s3.pos) ∧
                  (∀ p : Nat, lr2 = some p → p < s3.pos) := Pst0
              obtain ⟨Plen0, Pleft0, Pdrop0, Ptake0⟩ := PR0
              have Plen : s.queue.length ≤ s3.queue.length := Plen0
              have Pdrop : ∀ t ∈ s3.queue.drop s.queue.length, s.pos ≤ t.start := Pdrop0
              have FF3 : s3.queue.take pos = s.queue.take pos := by
                have h9 := take_of_take_eq pos s.queue.length s2.queue s3.queue hlen Ptk
                rw [e2] at h9
                exact h9
              have FF5b : ∀ b ∈ s3.queue.drop pos, left ≤ b.start ∧ (left < b.start ∨ b.stop < s.pos) := by
                intro b hb
                rcases mem_drop_split pos s.queue.length s3.queue hlen Plen b hb with hb1 | hb2
                · rw [Ptk, e2, List.take_length] at hb1
                  exact ⟨hdrop b hb1, Or.inr (hstrict.1 b (List.mem_of_mem_drop hb1))⟩
                · have h9 := Pdrop b hb2
                  exact ⟨by omega, Or.inl (by omega)⟩
              have tail := fun (right3 : Nat) (lr3 : Option Nat) (s4 : Rdp) h1 h2 =>
                pcIter_tail f pos left min_prec op3 lr2 s.pos right3 lr3 s s3 s4 ihL
                  (Pin.trans e3) (by omega) FF3 PQ (hlen.trans Plen) FF5b Plr Pst
                  (by omega) hleft (fun _ => by omega) htake h1 h2
              rcases lr2 with _ | p <;> rcases rule with _ | r
              · exact tail s.pos (some s.pos) s3 (Or.inl ⟨rfl, rfl, rfl⟩) (Or.inl rfl)
              · exact tail s.pos (some s.pos) _ (Or.inl ⟨rfl, rfl, rfl⟩) (Or.inr ⟨r, rfl⟩)
              · exact tail (max p s.pos) (some p) s3 (Or.inr ⟨p, rfl, rfl, rfl⟩) (Or.inl rfl)
              · exact tail (max p s.pos) (some p) _ (Or.inr ⟨p, rfl, rfl, rfl⟩) (Or.inr ⟨r, rfl⟩)
          · -- primary succeeded: one letter token was pushed
            have hs1 : s1 =
                { s with pos := s.pos + 1, queue := s.queue ++ [⟨letterR, s.pos, s.pos + 1⟩] } :=
              congrArg Prod.snd hA
            have hq1 : s1.queue = s.queue ++ [⟨letterR, s.pos, s.pos + 1⟩] := by rw [hs1]
            have hp1 : s1.pos = s.pos + 1 := by rw [hs1]
            have hi0 : s1.input = s.input := by rw [hs1]
            have hqq : s1.queue[s.queue.length]? = some ⟨letterR, s.pos, s.pos + 1⟩ := by
              rw [hq1]; exact List.getElem?_concat_length _ _
            simp only [hqq]
            have hQ1 : QInv s1 := by
              constructor
              · intro t ht
                rw [hq1] at ht
                rcases List.mem_append.mp ht with hold | hnew
                · obtain ⟨h3, h4⟩ := hstops t hold
                  exact ⟨by omega, h4⟩
                · rcases List.mem_singleton.mp hnew with rfl
                  refine ⟨?_, ?_⟩
                  · show s.pos + 1 ≤ s1.pos
                    omega
                  · show s.pos < s.pos + 1
                    omega
              · rw [hq1]
                refine orderedContainment_append s.queue _ hord ?_
                intro a ha hcon
                obtain ⟨h3, h4⟩ := hstops a ha
                have h5 : s.pos ≤ a.start := hcon.1
                omega
            obtain ⟨⟨op2, s2⟩, hcl⟩ : ∃ x, opClimb s1 = x := ⟨_, rfl⟩
            simp only [hcl]
            rcases opClimb_cases s1 with ⟨h1, h2⟩ | ⟨h1, h2⟩ <;> rw [hcl] at h1 h2
            · -- no operator follows
              have h1' : op2 = none := h1
              have h2' : s2 = s1 := h2
              subst h1'
              rw [h2']
              rw [pcInner_none_eq]
              have FF3 : s1.queue.take pos = s.queue.take pos := by
                rw [hq1]
                exact List.take_append_of_le_length hlen
              have FF5a : pos ≤ s1.queue.length := by
                rw [hq1]
                simp
                omega
              have FF5b : ∀ b ∈ s1.queue.drop pos,
                  left ≤ b.start ∧ (left < b.start ∨ b.stop < s.pos + 1) := by
                intro b hb
                rw [hq1, List.drop_append_of_le_length hlen] at hb
                rcases List.mem_append.mp hb with hold | hnew
                · exact ⟨hdrop b hold,
                    Or.inr (by have := hstrict.1 b (List.mem_of_mem_drop hold); omega)⟩
                · rcases List.mem_singleton.mp hnew with rfl
                  refine ⟨?_, Or.inl ?_⟩
                  · show left ≤ s.pos
                    omega
                  · show left < s.pos
                    omega
              have tail := fun (right3 : Nat) (lr3 : Option Nat) (s4 : Rdp) h1 h2 =>
                pcIter_tail f pos left min_prec none lr (s.pos + 1) right3 lr3 s s1 s4 ihL
                  hi0 (by omega) FF3 hQ1 FF5a FF5b
                  (fun p hp => by have := hlrb p hp; omega) (fun h => by simp at h)
                  (by omega) (by omega) (fun h => by simp at h) htake h1 h2
              rcases lr with _ | p <;> rcases rule with _ | r
              · exact tail (s.pos + 1) (some (s.pos + 1)) s1 (Or.inl ⟨rfl, rfl, rfl⟩) (Or.inl rfl)
              · exact tail (s.pos + 1) (some (s.pos + 1)) _ (Or.inl ⟨rfl, rfl, rfl⟩) (Or.inr ⟨r, rfl⟩)
              · exact tail (max p (s.pos + 1)) (some p) s1 (Or.inr ⟨p, rfl, rfl, rfl⟩) (Or.inl rfl)
              · exact tail (max p (s.pos + 1)) (some p) _ (Or.inr ⟨p, rfl, rfl, rfl⟩) (Or.inr ⟨r, rfl⟩)
            · -- an operator follows: run the inner loop via the induction hypothesis
              have h1' : op2.isSome = true := h1
              have h2' : s2 = { s1 with pos := s1.pos + 1 } := h2
              have e1 : s2.pos = s1.pos + 1 := by rw [h2']
              have e2 : s2.queue = s1.queue := by rw [h2']
              have e3 : s2.input = s1.input := by rw [h2']
              have hpre2 : PcPre s.queue.length s.pos op2 lr s2 := by
                refine ⟨⟨?_, ?_⟩, ⟨?_, ?_, ?_, ?_⟩, ?_, ?_⟩
                · intro t ht
                  rw [e2] at ht
                  obtain ⟨h3, h4⟩ := hQ1.1 t ht
                  exact ⟨by omega, h4⟩
                · rw [e2]; exact hQ1.2
                · rw [e2, hq1]
                  simp
                · omega
                · intro t ht
                  rw [e2, hq1, List.drop_left] at ht
                  rcases List.mem_singleton.mp ht with rfl
                  simp
                · intro t ht
                  rw [e2, hq1, List.take_left] at ht
                  obtain ⟨h3, h4⟩ := hstops t ht
                  exact ⟨by omega, h3⟩
                · intro p hp
                  have := hlrb p hp
                  omega
                · intro _
                  refine ⟨?_, ?_⟩
                  · intro t ht
                    rw [e2] at ht
                    have := (hQ1.1 t ht).1
                    omega
                  · intro p hp
                    have := hlrb p hp
                    omega
              obtain ⟨⟨⟨op3, lr2⟩, s3⟩, hinner⟩ :
                  ∃ x, Rdp.pcInner letterPrimary opClimb f prec s.queue.length s.pos op2 lr s2 = x :=
                ⟨_, rfl⟩
              simp only [hinner]
              have hpost := ihI prec s.queue.length s.pos op2 lr s2 hpre2
              rw [hinner] at hpost
              obtain ⟨PQ0, PR0, Pin0, Ppos0, Ptk0, Plr0, Pst0⟩ := hpost
              have PQ : QInv s3 := PQ0
              have Pin : s3.input = s2.input := Pin0
              have Ppos : s2.pos ≤ s3.pos := Ppos0
              have Ptk : s3.queue.take s.queue.length = s2.queue.take s.queue.length := Ptk0
              have Plr : ∀ p : Nat, lr2 = some p → p ≤ s3.pos := Plr0
              have Pst : op3.isSome = true →
                  (∀ t ∈ s3.queue, t.stop < s3.pos) ∧
                  (∀ p : Nat, lr2 = some p → p < s3.pos) := Pst0
              obtain ⟨Plen0, Pleft0, Pdrop0, Ptake0⟩ := PR0
              have Plen : s.queue.length ≤ s3.queue.length := Plen0
              have Pdrop : ∀ t ∈ s3.queue.drop s.queue.length, s.pos ≤ t.start := Pdrop0
              have FF3 : s3.queue.take pos = s.queue.take pos := by
                have h9 := take_of_take_eq pos s.queue.length s2.queue s3.queue hlen Ptk
                rw [e2, hq1, List.take_append_of_le_length hlen] at h9
                exact h9
              have FF5b : ∀ b ∈ s3.queue.drop pos,
                  left ≤ b.start ∧ (left < b.start ∨ b.stop < s.pos + 1) := by
                intro b hb
                rcases mem_drop_split pos s.queue.length s3.queue hlen Plen b hb with hb1 | hb2
                · rw [Ptk, e2, hq1, List.take_left] at hb1
                  exact ⟨hdrop b hb1,
                    Or.inr (by have := hstrict.1 b (List.mem_of_mem_drop hb1); omega)⟩
                · have h9 := Pdrop b hb2
                  exact ⟨by omega, Or.inl (by omega)⟩
              have tail := fun (right3 : Nat) (lr3 : Option Nat) (s4 : Rdp) h1 h2 =>
                pcIter_tail f pos left min_prec op3 lr2 (s.pos + 1) right3 lr3 s s3 s4 ihL
                  (Pin.trans (e3.trans hi0)) (by omega) FF3 PQ (hlen.trans Plen) FF5b Plr Pst
                  (by omega) (by omega) (fun _ => by omega) htake h1 h2
              rcases lr2 with _ | p <;> rcases rule with _ | r
              · exact tail (s.pos + 1) (some (s.pos + 1)) s3 (Or.inl ⟨rfl, rfl, rfl⟩) (Or.inl rfl)
              · exact tail (s.pos + 1) (some (s.pos + 1)) _ (Or.inl ⟨rfl, rfl, rfl⟩) (Or.inr ⟨r, rfl⟩)
              · exact tail (max p (s.pos + 1)) (some p) s3 (Or.inr ⟨p, rfl, rfl, rfl⟩) (Or.inl rfl)
              · exact tail (max p (s.pos + 1)) (some p) _ (Or.inr ⟨p, rfl, rfl, rfl⟩) (Or.inr ⟨r, rfl⟩)
        · have heq : Rdp.pcLoop letterPrimary opClimb (f + 1) pos left min_prec
              (some (rule, prec, assoc)) lr s = ((some (rule, prec, assoc), lr), s) := by
            simp only [Rdp.pcLoop]
            rw [if_neg hge]
          rw [heq]
          exact pcPost_id pos left (some (rule, prec, assoc)) lr s hpre
    · -- one step of the inner loop
      intro prec qp np op lr s hpre
      rcases op with _ | ⟨r0, new_prec, right_assoc⟩
      · rw [pcInner_none_eq]
        exact pcPost_id qp np none lr s hpre
      · by_cases hcl : new_prec > prec ∨ (right_assoc ∧ new_prec = prec)
        · simp only [Rdp.pcInner]
          rw [if_pos hcl]
          obtain ⟨hQ, hR, hlrb, hstr⟩ := hpre
          have hpreL : PcPre qp np (some (r0, new_prec, right_assoc)) none s :=
            ⟨hQ, hR, fun p hp => Option.noConfusion hp,
              fun h => ⟨(hstr h).1, fun p hp => Option.noConfusion hp⟩⟩
          obtain ⟨⟨⟨op2, lr2⟩, s2⟩, hL⟩ :
              ∃ x, Rdp.pcLoop letterPrimary opClimb f qp np new_prec
                (some (r0, new_prec, right_assoc)) none s = x := ⟨_, rfl⟩
          simp only [hL]
          have hpostL := ihL qp np new_prec (some (r0, new_prec, right_assoc)) none s hpreL
          rw [hL] at hpostL
          obtain ⟨LQ0, LR0, Lin0, Lpos0, Ltk0, Llr0, Lst0⟩ := hpostL
          have LQ : QInv s2 := LQ0
          have LR : RegionInv qp np s2 := LR0
          have Lin : s2.input = s.input := Lin0
          have Lpos : s.pos ≤ s2.pos := Lpos0
          have Ltk : s2.queue.take qp = s.queue.take qp := Ltk0
          have Llr : ∀ p : Nat, lr2 = some p → p ≤ s2.pos := Llr0
          have Lst : op2.isSome = true →
              (∀ t ∈ s2.queue, t.stop < s2.pos) ∧
              (∀ p : Nat, lr2 = some p → p < s2.pos) := Lst0
          have hpreI : PcPre qp np op2 lr2 s2 := ⟨LQ, LR, Llr, Lst⟩
          have hpostI := ihI prec qp np op2 lr2 s2 hpreI
          exact pcPost_trans qp np s s2 _ hpostI Lin Lpos Ltk
        · have heq : Rdp.pcInner letterPrimary opClimb (f + 1) prec qp np
              (some (r0, new_prec, right_assoc)) lr s =
              ((some (r0, new_prec, right_assoc), lr), s) := by
            simp only [Rdp.pcInner]
            rw [if_neg hcl]
          rw [heq]
          exact pcPost_id qp np (some (r0, new_prec, right_assoc)) lr s hpre

/-- The scenario parse keeps the queue in containment order: the top-level
`climbExpr` call establishes the loop invariants and `pc_spec` carries them
through the climb. -/
theorem parseExpr_ordered (fuel : Nat) (input : List Char) :
    orderedContainment (parseExpr fuel input).queue := by
  unfold parseExpr climbExpr
  obtain ⟨⟨b1, s1⟩, hprim⟩ : ∃ x, letterPrimary (Rdp.new input) = x := ⟨_, rfl⟩
  simp only [hprim]
  rcases letterPrimary_cases (Rdp.new input) with hA | hA <;> rw [hprim] at hA
  · have hb : b1 = false := congrArg Prod.fst hA
    have hs : s1 = Rdp.new input := congrArg Prod.snd hA
    rw [hb, hs]
    simp only [Bool.false_eq_true, if_false]
    show orderedContainment ([] : List Token)
    exact List.Pairwise.nil
  · have hb : b1 = true := congrArg Prod.fst hA
    have hs : s1 =
        { Rdp.new input with pos := (Rdp.new input).pos + 1, queue := (Rdp.new input).queue ++ [⟨letterR, (Rdp.new input).pos, (Rdp.new input).pos + 1⟩] } :=
      congrArg Prod.snd hA
    have hq1 : s1.queue = [⟨letterR, 0, 1⟩] := by rw [hs]; rfl
    have hp1 : s1.pos = 1 := by rw [hs]; rfl
    rw [hb]
    simp only [if_true]
    unfold Rdp.prec_climb
    obtain ⟨⟨op0, s2⟩, hcl⟩ : ∃ x, opClimb s1 = x := ⟨_, rfl⟩
    simp only [hcl]
    rcases opClimb_cases s1 with ⟨h1, h2⟩ | ⟨h1, h2⟩ <;> rw [hcl] at h1 h2
    · have h1' : op0 = none := h1
      have h2' : s2 = s1 := h2
      subst h1'
      rw [h2', pcLoop_none_eq]
      show orderedContainment s1.queue
      rw [hq1]
      unfold orderedContainment
      exact List.pairwise_singleton _ _
    · have h1' : op0.isSome = true := h1
      have h2' : s2 = { s1 with pos := s1.pos + 1 } := h2
      have e1 : s2.pos = s1.pos + 1 := by rw [h2']
      have e2 : s2.queue = s1.queue := by rw [h2']
      have hpre : PcPre 0 0 op0 none s2 := by
        refine ⟨⟨?_, ?_⟩, ⟨?_, ?_, ?_, ?_⟩, ?_, ?_⟩
        · intro t ht
          rw [e2, hq1] at ht
          rcases List.mem_singleton.mp ht with rfl
          refine ⟨?_, ?_⟩
          · show (1 : Nat) ≤ s2.pos
            omega
          · show (0 : Nat) < 1
            omega
        · rw [e2, hq1]
          unfold orderedContainment
          exact List.pairwise_singleton _ _
        · exact Nat.zero_le _
        · omega
        · intro t ht
          exact Nat.zero_le _
        · intro t ht
          simp at ht
        · intro p hp
          cases hp
        · intro _
          refine ⟨?_, ?_⟩
          · intro t ht
            rw [e2, hq1] at ht
            rcases List.mem_singleton.mp ht with rfl
            show (1 : Nat) < s2.pos
            omega
          · intro p hp
            cases hp
      have hpost := (pc_spec fuel).1 0 0 0 op0 none s2 hpre
      obtain ⟨⟨_, hord⟩, _⟩ := hpost
      exact hord

/-- Claim C4: token-queue containment ordering. For the scenario grammar
(single-letter primaries via `match_range`, one-character `+` and `^`
operators via `match_string`), every parse by `prec_climb` — over every
input and every fuel bound — leaves the Token Queue such that whenever one
token's span contains another token's span, the containing token occurs at
an index at or before the contained one.  The proof goes through the loop
invariant that `prec_climb` synthesizes, for a non-silent operator, a token
`⟨rule, left_bound, right_edge⟩` inserted at the queue position recorded
before the sub-expression's first primary, wrapping its already-queued
operand tokens (`pcIter_tail`). -/
theorem prec_climb_containment_ordering (fuel : Nat) (input : List Char) :
    ∀ i j : Fin (parseExpr fuel input).queue.length,
      spanContains ((parseExpr fuel input).queue.get i) ((parseExpr fuel input).queue.get j) →
      (i : Nat) ≤ (j : Nat) := by
  intro i j hcon
  by_contra hij
  have hji : j < i := by omega
  have hpw := parseExpr_ordered fuel input
  unfold orderedContainment at hpw
  exact (List.pairwise_iff_get.mp hpw) j i hji hcon

/-- Closed instance of the containment ordering invariant: in the parse of
"a+b+c" the token at queue index 0 (the outer `+`) contains the token at
queue index 1 (the inner `+`), and indeed 0 ≤ 1. -/
theorem prec_climb_containment_ordering_witness :
    spanContains
        ((parseExpr 10 "a+b+c".toList).queue.get ⟨0, by decide⟩)
        ((parseExpr 10 "a+b+c".toList).queue.get ⟨1, by decide⟩) ∧
      (0 : Nat) ≤ 1 :=
  ⟨by decide,
    prec_climb_containment_ordering 10 "a+b+c".toList ⟨0, by decide⟩ ⟨1, by decide⟩ (by decide)⟩

end Pest
